import Mathlib

/-!
Verification of the Lukso pandora pending-header staging subsystem:

* the `core` package's `PandoraPendingHeaderContainer` — an in-memory
  header staging store built on `rawdb.NewMemoryDatabase`, and
* the `pandora_orcclient` package's confirmation exchange
  (`ConfirmPanBlockHashes` on the mock orchestrator service).

The in-memory database is a byte-keyed map whose iterators walk keys in
ascending byte order.  The container only ever writes three disjoint key
families, which we model as three fields of `MemDB`:

* `"H" ++ hash`            ↦ header number   (`hashToNumber`),
* `"h" ++ num8 ++ hash`    ↦ header body     (`headerStore`),
* `"LastHeader"`           ↦ head hash       (`headHash`).

A 41-byte header key `"h" ++ num8 ++ hash` is modelled as the pair
`(number, hash)`; byte-lexicographic order on those keys (8-byte
big-endian number, then 32-byte digest) is exactly the lexicographic
order `keyLe` on the pairs.  `common.BytesToHash` of a 41-byte key keeps
its last 32 bytes, i.e. the `hash` component of the pair.  Digests are
modelled as natural numbers (the value of the 32-byte big-endian digest),
so byte order on digests is numeric order.  The `event.Feed` field
`pndHeaderFeed` is modelled by the list of per-subscriber inboxes: the
events each current subscriber has received so far.
-/

/-- One binding per key, as in a Go map: replace the binding of the key if
present, append a fresh binding otherwise. -/
def putAssoc {κ α : Type} [DecidableEq κ] : List (κ × α) → κ → α → List (κ × α)
  | [], k, v => [(k, v)]
  | (k', v') :: rest, k, v =>
    if k' = k then (k, v) :: rest else (k', v') :: putAssoc rest k v

/-- Go map read: the binding of the key, if any. -/
def lookupAssoc {κ α : Type} [DecidableEq κ] : List (κ × α) → κ → Option α
  | [], _ => none
  | (k', v') :: rest, k => if k' = k then some v' else lookupAssoc rest k

/-- A block header, consumed opaquely by the container: its number, its
content digest (`header.Hash()` — a pure function of the content, so equal
digests of really-hashed headers imply equal headers; that collision
freedom is carried as the explicit hypothesis `hashConsistent` where a
proof needs it), and the rest of the consensus metadata collapsed into one
opaque field. -/
structure Header where
  number : Nat
  hash : Nat
  extra : Nat
deriving DecidableEq

/-- The slice of the in-memory database touched by the container, split by
the three disjoint key families it writes (see the module comment). -/
structure MemDB where
  hashToNumber : List (Nat × Nat)
  headerStore : List ((Nat × Nat) × Header)
  headHash : Option Nat
deriving DecidableEq

namespace rawdb

/-- `rawdb.NewMemoryDatabase`: a fresh, empty key-value store. -/
def NewMemoryDatabase : MemDB :=
  { hashToNumber := [], headerStore := [], headHash := none }

/-- `rawdb.WriteHeader`: stores the hash-to-number mapping
(`"H" ++ hash ↦ number`) and the header body
(`"h" ++ num8 ++ hash ↦ rlp(header)`). -/
def WriteHeader (db : MemDB) (header : Header) : MemDB :=
  { hashToNumber := putAssoc db.hashToNumber header.hash header.number
    headerStore := putAssoc db.headerStore (header.number, header.hash) header
    headHash := db.headHash }

/-- `rawdb.WriteHeadHeaderHash`: stores the `"LastHeader"` entry. -/
def WriteHeadHeaderHash (db : MemDB) (hash : Nat) : MemDB :=
  { hashToNumber := db.hashToNumber
    headerStore := db.headerStore
    headHash := some hash }

/-- `rawdb.ReadHeaderNumber`: the number bound to a hash, absent if the
hash is unknown. -/
def ReadHeaderNumber (db : MemDB) (hash : Nat) : Option Nat :=
  lookupAssoc db.hashToNumber hash

/-- `rawdb.ReadHeadHeaderHash`: the stored head hash, or the zero digest
`common.Hash\x7b\x7d` when no head entry exists. -/
def ReadHeadHeaderHash (db : MemDB) : Nat :=
  match db.headHash with
  | some hash => hash
  | none => 0

/-- `rawdb.ReadHeader`: the header stored under `"h" ++ num8 ++ hash`,
absent if that key is unset. -/
def ReadHeader (db : MemDB) (hash number : Nat) : Option Header :=
  lookupAssoc db.headerStore (number, hash)

/-- Byte-lexicographic order of two 41-byte header keys
`"h" ++ num8 ++ hash`, expressed on the modelled pairs `(number, hash)`. -/
def keyLe (a b : Nat × Nat) : Prop :=
  a.1 < b.1 ∨ (a.1 = b.1 ∧ a.2 ≤ b.2)

instance (a b : Nat × Nat) : Decidable (keyLe a b) := by
  unfold keyLe; infer_instance

instance : IsTotal (Nat × Nat) keyLe :=
  ⟨fun a b => by unfold keyLe; omega⟩

instance : IsTrans (Nat × Nat) keyLe :=
  ⟨fun a b c => by unfold keyLe; omega⟩

/-- The key sequence produced by `db.NewIterator([]byte("h"), nil)`: all
header keys, in ascending byte order (the memory database sorts its key
snapshot before iterating). -/
def sortedHeaderKeys (db : MemDB) : List (Nat × Nat) :=
  List.insertionSort keyLe (db.headerStore.map Prod.fst)

/-- `rawdb.ReadAllHashes`: every hash stored at the given number, in
ascending byte order (iterator over the prefix `"h" ++ num8`). -/
def ReadAllHashes (db : MemDB) (number : Nat) : List Nat :=
  List.insertionSort (fun a b => a ≤ b)
    (db.headerStore.filterMap (fun e => if e.1.1 = number then some e.1.2 else none))

end rawdb

/-- `PandoraPendingHeaderContainer`: the ephemeral staging store plus the
notification feed, the latter modelled as the list of inboxes of the
current subscribers (each inbox lists the header events that subscriber
has received, oldest first). -/
structure PandoraPendingHeaderContainer where
  headerContainer : MemDB
  pndHeaderFeed : List (List Header)
deriving DecidableEq

namespace core

/-- `NewPandoraPendingHeaderContainer`: fresh empty store, no subscribers. -/
def NewPandoraPendingHeaderContainer : PandoraPendingHeaderContainer :=
  { headerContainer := rawdb.NewMemoryDatabase
    pndHeaderFeed := [] }

/-- `WriteHeader`: writes the header into the db, then records its hash as
the head of the container queue.  The function body performs no operation
on `pndHeaderFeed`, so the subscriber inboxes are returned unchanged. -/
def WriteHeader (container : PandoraPendingHeaderContainer) (header : Header) :
    PandoraPendingHeaderContainer :=
  { headerContainer :=
      rawdb.WriteHeadHeaderHash (rawdb.WriteHeader container.headerContainer header) header.hash
    pndHeaderFeed := container.pndHeaderFeed }

/-- `WriteHeaderBatch`: applies `WriteHeader` to each element in order. -/
def WriteHeaderBatch (container : PandoraPendingHeaderContainer) (headers : List Header) :
    PandoraPendingHeaderContainer :=
  headers.foldl WriteHeader container

/-- `readHeader`: first hash stored at the number, then the header body
under it; absent when no hash is stored at that number. -/
def readHeader (container : PandoraPendingHeaderContainer) (headerNumber : Nat) : Option Header :=
  match rawdb.ReadAllHashes container.headerContainer headerNumber with
  | [] => none
  | hash0 :: _ => rawdb.ReadHeader container.headerContainer hash0 headerNumber

/-- The iteration loop of `readAllHeaders` over the iterator's key
sequence: for each key, reads the number bound to the key's hash part and
appends the header body read back under that number; on a missing number
binding it stops and returns what was accumulated so far.  Entries are the
possibly-nil header pointers the Go loop appends. -/
def readAllLoop (db : MemDB) : List (Nat × Nat) → List (Option Header)
  | [] => []
  | key :: rest =>
    match rawdb.ReadHeaderNumber db key.2 with
    | none => []
    | some headerNumber => rawdb.ReadHeader db key.2 headerNumber :: readAllLoop db rest

/-- `readAllHeaders`: walks the `"h"`-prefixed iterator and reads every
header back. -/
def readAllHeaders (container : PandoraPendingHeaderContainer) : List (Option Header) :=
  readAllLoop container.headerContainer (rawdb.sortedHeaderKeys container.headerContainer)

/-- `ReadHeaderSince`: if `fromHash` has no number binding (empty hash at
orchestrator bootup, or already confirmed and pruned) return every
available header; if the head's number is unresolved return nothing; else
return the headers found at each number from `fromHash`'s number up to the
head's number, skipping unresolved numbers. -/
def ReadHeaderSince (container : PandoraPendingHeaderContainer) (fromHash : Nat) :
    List (Option Header) :=
  match rawdb.ReadHeaderNumber container.headerContainer fromHash with
  | none => readAllHeaders container
  | some fromHeaderNumber =>
    match rawdb.ReadHeaderNumber container.headerContainer
        (rawdb.ReadHeadHeaderHash container.headerContainer) with
    | none => []
    | some lastHeaderNumber =>
      (List.range' fromHeaderNumber (lastHeaderNumber + 1 - fromHeaderNumber)).filterMap
        (fun i => (readHeader container i).map some)

end core

namespace pandora_orcclient

/-- Block status codes (`Pending`, `Verified`, `Invalid` — iota 0, 1, 2). -/
inductive Status where
  | Pending
  | Verified
  | Invalid
deriving DecidableEq

/-- A request identifier: digest plus the authority's slot number. -/
structure BlockHash where
  hash : Nat
  slot : Nat
deriving DecidableEq

/-- A response record: the echoed identifier plus one status. -/
structure BlockStatus where
  blockHash : BlockHash
  status : Status
deriving DecidableEq

/-- The digest the mock orchestrator treats as known-invalid (value of the
hex constant `MockedHashInvalid`). -/
def MockedHashInvalid : Nat :=
  0xc9a190eb52c18df5ffcb1d817214ecb08f025f8583805cd12064d30e3f9bd9d5

/-- The digest the mock orchestrator treats as known-pending (value of the
hex constant `MockedHashPending`). -/
def MockedHashPending : Nat :=
  0xa99c69a301564970956edd897ff0590f4c0f1031daa464ded655af65ad0906df

/-- The per-item loop body of `ConfirmPanBlockHashes`: start from
`Verified`, overwrite with `Invalid` on the known-invalid digest, then
with `Pending` on the known-pending digest.  Digest equality models the
string comparison of the canonical hex forms, which coincide exactly when
the 32-byte digests do. -/
def confirmStatus (hash : Nat) : Status :=
  let status := Status.Verified
  let status := if hash = MockedHashInvalid then Status.Invalid else status
  let status := if hash = MockedHashPending then Status.Pending else status
  status

/-- `ConfirmPanBlockHashes` on the mock orchestrator service: reject an
empty request with an input error before any response is built, else
answer one positionally matched `BlockStatus` per request item. -/
def ConfirmPanBlockHashes (request : List BlockHash) :
    Except String (List BlockStatus) :=
  if request.length < 1 then
    Except.error "request has empty slice"
  else
    Except.ok (request.map (fun blockRequest =>
      { blockHash := { hash := blockRequest.hash, slot := blockRequest.slot }
        status := confirmStatus blockRequest.hash }))

end pandora_orcclient

/-- The database effect of one `core.WriteHeader` call: the two `rawdb`
writes it performs. -/
def dbStep (db : MemDB) (h : Header) : MemDB :=
  rawdb.WriteHeadHeaderHash (rawdb.WriteHeader db h) h.hash

/-- Spec-side reachability: the database produced by writing the given
headers in order into a fresh memory database.  Container states are
mutated only through the write API, so these are exactly the reachable
store states. -/
def dbOf (headers : List Header) : MemDB :=
  headers.foldl dbStep rawdb.NewMemoryDatabase

/-- Spec-side collision freedom of real digests: among the written
headers, equal digests come only from equal headers (`header.Hash()` is a
pure content digest). -/
def hashConsistent (headers : List Header) : Prop :=
  ∀ h1 ∈ headers, ∀ h2 ∈ headers, h1.hash = h2.hash → h1 = h2

/-- Spec-side description of the range branch's index set: the numbers in
the inclusive range from `k` to `n` at which the container resolves a
header. -/
def resolvableNumbers (container : PandoraPendingHeaderContainer) (k n : Nat) : List Nat :=
  (List.range' k (n + 1 - k)).filter (fun i => (core.readHeader container i).isSome)

instance (headers : List Header) : Decidable (hashConsistent headers) := by
  unfold hashConsistent; infer_instance

/-- Default header used only to name the value bound to a store key. -/
def headerAtKey (db : MemDB) (k : Nat × Nat) : Header :=
  (lookupAssoc db.headerStore k).getD ⟨0, 0, 0⟩

/-- Well-formedness of a reachable store: every header entry sits under
the key built from its own number and hash, its hash is bound to its key
number in the hash-to-number index, and header keys are unrepeated. -/
def storeWF (db : MemDB) : Prop :=
  (∀ e ∈ db.headerStore, (e.2).number = e.1.1 ∧ (e.2).hash = e.1.2) ∧
  (∀ e ∈ db.headerStore, lookupAssoc db.hashToNumber e.1.2 = some e.1.1) ∧
  (db.headerStore.map Prod.fst).Nodup

/-! ### Association-list lemmas -/

theorem lookupAssoc_putAssoc {κ α : Type} [DecidableEq κ] (l : List (κ × α)) (k k' : κ) (v : α) :
    lookupAssoc (putAssoc l k v) k' = if k' = k then some v else lookupAssoc l k' := by
  induction l with
  | nil =>
    simp only [putAssoc, lookupAssoc]
    by_cases h : k = k'
    · subst h; simp
    · simp [h, Ne.symm h]
  | cons e rest ih =>
    obtain ⟨ek, ev⟩ := e
    simp only [putAssoc]
    by_cases hek : ek = k
    · subst hek
      by_cases h : ek = k'
      · subst h; simp [lookupAssoc]
      · simp [lookupAssoc, h, Ne.symm h]
    · by_cases h : ek = k'
      · have hk'k : ¬k' = k := fun hh => hek (h.trans hh)
        simp [lookupAssoc, hek, h, hk'k]
      · simp [lookupAssoc, hek, h, ih]

theorem mem_putAssoc {κ α : Type} [DecidableEq κ] {l : List (κ × α)} {k : κ} {v : α}
    {e : κ × α} (he : e ∈ putAssoc l k v) : e = (k, v) ∨ e ∈ l := by
  induction l with
  | nil => simpa [putAssoc] using he
  | cons e' rest ih =>
    obtain ⟨ek, ev⟩ := e'
    by_cases hek : ek = k
    · subst hek
      simp only [putAssoc, if_true, eq_self_iff_true, List.mem_cons] at he
      rcases he with h | h
      · exact Or.inl h
      · exact Or.inr (List.mem_cons_of_mem _ h)
    · simp only [putAssoc, if_neg hek, List.mem_cons] at he
      rcases he with h | h
      · exact Or.inr (by simp [h])
      · rcases ih h with h' | h'
        · exact Or.inl h'
        · exact Or.inr (List.mem_cons_of_mem _ h')

theorem map_fst_putAssoc_of_mem {κ α : Type} [DecidableEq κ] {l : List (κ × α)} {k : κ}
    (hk : k ∈ l.map Prod.fst) (v : α) :
    (putAssoc l k v).map Prod.fst = l.map Prod.fst := by
  induction l with
  | nil => simp at hk
  | cons e rest ih =>
    obtain ⟨ek, ev⟩ := e
    by_cases hek : ek = k
    · subst hek; simp [putAssoc]
    · have hk' : k ∈ rest.map Prod.fst := by
        rcases List.mem_cons.1 hk with h | h
        · exact absurd h.symm hek
        · exact h
      simp [putAssoc, hek, ih hk']

theorem map_fst_putAssoc_of_not_mem {κ α : Type} [DecidableEq κ] {l : List (κ × α)} {k : κ}
    (hk : k ∉ l.map Prod.fst) (v : α) :
    (putAssoc l k v).map Prod.fst = l.map Prod.fst ++ [k] := by
  induction l with
  | nil => simp [putAssoc]
  | cons e rest ih =>
    obtain ⟨ek, ev⟩ := e
    simp only [List.map_cons, List.mem_cons] at hk
    push_neg at hk
    have hek : ek ≠ k := fun h => hk.1 h.symm
    simp [putAssoc, hek, ih hk.2]

theorem nodup_keys_putAssoc {κ α : Type} [DecidableEq κ] {l : List (κ × α)}
    (h : (l.map Prod.fst).Nodup) (k : κ) (v : α) :
    ((putAssoc l k v).map Prod.fst).Nodup := by
  by_cases hk : k ∈ l.map Prod.fst
  · rw [map_fst_putAssoc_of_mem hk]; exact h
  · rw [map_fst_putAssoc_of_not_mem hk]
    simp [List.nodup_append, h, hk]

theorem putAssoc_putAssoc {κ α : Type} [DecidableEq κ] (l : List (κ × α)) (k : κ) (v : α) :
    putAssoc (putAssoc l k v) k v = putAssoc l k v := by
  induction l with
  | nil => simp [putAssoc]
  | cons e rest ih =>
    obtain ⟨ek, ev⟩ := e
    by_cases hek : ek = k
    · subst hek; simp [putAssoc]
    · simp [putAssoc, hek, ih]

theorem mem_of_lookupAssoc_eq_some {κ α : Type} [DecidableEq κ] {l : List (κ × α)} {k : κ}
    {v : α} (h : lookupAssoc l k = some v) : (k, v) ∈ l := by
  induction l with
  | nil => simp [lookupAssoc] at h
  | cons e rest ih =>
    obtain ⟨ek, ev⟩ := e
    by_cases hek : ek = k
    · subst hek
      simp only [lookupAssoc, if_true, eq_self_iff_true, Option.some.injEq] at h
      subst h
      exact List.mem_cons_self _ _
    · simp only [lookupAssoc, if_neg hek] at h
      exact List.mem_cons_of_mem _ (ih h)

theorem lookupAssoc_eq_some_of_mem {κ α : Type} [DecidableEq κ] {l : List (κ × α)}
    (hnd : (l.map Prod.fst).Nodup) {e : κ × α} (he : e ∈ l) :
    lookupAssoc l e.1 = some e.2 := by
  induction l with
  | nil => simp at he
  | cons e' rest ih =>
    obtain ⟨ek, ev⟩ := e'
    simp only [List.map_cons, List.nodup_cons] at hnd
    rcases List.mem_cons.1 he with h | h
    · subst h; simp [lookupAssoc]
    · have hne : ek ≠ e.1 := by
        intro hcontra
        exact hnd.1 (hcontra ▸ List.mem_map_of_mem Prod.fst h)
      simp [lookupAssoc, hne, ih hnd.2 h]

theorem lookupAssoc_putAssoc_isSome {κ α : Type} [DecidableEq κ] {l : List (κ × α)} {k : κ}
    (h : (lookupAssoc l k).isSome) (k' : κ) (v : α) :
    (lookupAssoc (putAssoc l k' v) k).isSome := by
  rw [lookupAssoc_putAssoc]
  by_cases hk : k = k' <;> simp [hk, h]

/-! ### Generic list lemmas -/

theorem filterMap_of_mem_some {α β : Type} {ks : List α} {g : α → Option β} {f : α → β}
    (h : ∀ k ∈ ks, g k = some (f k)) : ks.filterMap g = ks.map f := by
  induction ks with
  | nil => rfl
  | cons a t ih =>
    simp [List.filterMap_cons, h a (by simp),
      ih (fun k hk => h k (List.mem_cons_of_mem _ hk))]

theorem filterMap_map_some_eq {α β : Type} (l : List α) (g : α → Option β) :
    l.filterMap (fun a => (g a).map some) = (l.filter (fun a => (g a).isSome)).map g := by
  induction l with
  | nil => rfl
  | cons a t ih =>
    cases hga : g a <;> simp [List.filterMap_cons, List.filter_cons, hga, ih]

/-! ### Reachable-state invariants -/

theorem dbOf_append_singleton (hs : List Header) (h : Header) :
    dbOf (hs ++ [h]) = dbStep (dbOf hs) h := by
  simp [dbOf, List.foldl_append]

theorem hashConsistent_of_append {hs : List Header} {h : Header}
    (hc : hashConsistent (hs ++ [h])) : hashConsistent hs :=
  fun h1 m1 h2 m2 => hc h1 (by simp [m1]) h2 (by simp [m2])

theorem WriteHeaderBatch_components (c : PandoraPendingHeaderContainer) (hs : List Header) :
    core.WriteHeaderBatch c hs =
      { headerContainer := hs.foldl dbStep c.headerContainer
        pndHeaderFeed := c.pndHeaderFeed } := by
  induction hs generalizing c with
  | nil => simp [core.WriteHeaderBatch]
  | cons h t ih =>
    have hstep := ih (core.WriteHeader c h)
    simp only [core.WriteHeaderBatch, List.foldl_cons] at hstep ⊢
    rw [hstep]
    simp [core.WriteHeader, dbStep]

theorem dbOf_eq_WriteHeaderBatch (hs : List Header) (subs : List (List Header)) :
    core.WriteHeaderBatch { headerContainer := rawdb.NewMemoryDatabase, pndHeaderFeed := subs }
        hs =
      { headerContainer := dbOf hs, pndHeaderFeed := subs } := by
  rw [WriteHeaderBatch_components]
  rfl

theorem dbOf_wf (hs : List Header) (hc : hashConsistent hs) :
    storeWF (dbOf hs) ∧ ∀ e ∈ (dbOf hs).headerStore, e.2 ∈ hs := by
  induction hs using List.reverseRecOn with
  | nil =>
    refine ⟨⟨?_, ?_, ?_⟩, ?_⟩ <;>
      simp [dbOf, rawdb.NewMemoryDatabase]
  | append_singleton hs h ih =>
    obtain ⟨⟨hwf1, hwf2, hwf3⟩, hmem⟩ := ih (hashConsistent_of_append hc)
    rw [dbOf_append_singleton]
    simp only [dbStep, rawdb.WriteHeadHeaderHash, rawdb.WriteHeader]
    refine ⟨⟨?_, ?_, ?_⟩, ?_⟩
    · intro e he
      rcases mem_putAssoc he with rfl | he'
      · simp
      · exact hwf1 e he'
    · intro e he
      rcases mem_putAssoc he with rfl | he'
      · simp [lookupAssoc_putAssoc]
      · rw [lookupAssoc_putAssoc]
        by_cases hx : e.1.2 = h.hash
        · have hehs : e.2 ∈ hs := hmem e he'
          have hhash : e.2.hash = h.hash := (hwf1 e he').2.trans hx
          have heq : e.2 = h :=
            hc e.2 (List.mem_append_left _ hehs) h (by simp) hhash
          have hnum : e.1.1 = h.number := ((hwf1 e he').1.symm.trans (by rw [heq]))
          simp [hx, hnum]
        · simp [hx, hwf2 e he']
    · exact nodup_keys_putAssoc hwf3 _ _
    · intro e he
      rcases mem_putAssoc he with rfl | he'
      · simp
      · exact List.mem_append_left _ (hmem e he')

/-! ### Characterization of the snapshot branch -/

theorem sortedHeaderKeys_perm (db : MemDB) :
    (rawdb.sortedHeaderKeys db).Perm (db.headerStore.map Prod.fst) :=
  List.perm_insertionSort _ _

theorem sortedHeaderKeys_sorted (db : MemDB) :
    List.Pairwise rawdb.keyLe (rawdb.sortedHeaderKeys db) :=
  List.sorted_insertionSort _ _

theorem lookup_hashToNumber_of_key (db : MemDB) (hwf : storeWF db) {k : Nat × Nat}
    (hk : k ∈ db.headerStore.map Prod.fst) :
    lookupAssoc db.hashToNumber k.2 = some k.1 := by
  rcases List.mem_map.1 hk with ⟨e, he, rfl⟩
  exact hwf.2.1 e he

theorem lookup_headerStore_of_key (db : MemDB) (hwf : storeWF db) {k : Nat × Nat}
    (hk : k ∈ db.headerStore.map Prod.fst) :
    lookupAssoc db.headerStore k = some (headerAtKey db k) ∧
      (headerAtKey db k).number = k.1 ∧ (headerAtKey db k).hash = k.2 := by
  rcases List.mem_map.1 hk with ⟨e, he, rfl⟩
  have hl := lookupAssoc_eq_some_of_mem hwf.2.2 he
  refine ⟨?_, ?_, ?_⟩ <;> simp [headerAtKey, hl, (hwf.1 e he).1, (hwf.1 e he).2]

theorem readAllLoop_eq_map (db : MemDB) (ks : List (Nat × Nat))
    (hks : ∀ k ∈ ks, lookupAssoc db.hashToNumber k.2 = some k.1) :
    core.readAllLoop db ks = ks.map (fun k => rawdb.ReadHeader db k.2 k.1) := by
  induction ks with
  | nil => rfl
  | cons a t ih =>
    simp [core.readAllLoop, rawdb.ReadHeaderNumber, hks a (List.mem_cons_self a t),
      ih (fun k hk => hks k (List.mem_cons_of_mem _ hk))]

theorem readAllHeaders_eq (db : MemDB) (subs : List (List Header)) (hwf : storeWF db) :
    core.readAllHeaders { headerContainer := db, pndHeaderFeed := subs } =
      (rawdb.sortedHeaderKeys db).map (fun k => some (headerAtKey db k)) := by
  rw [core.readAllHeaders]
  rw [readAllLoop_eq_map db _
    (fun k hk => lookup_hashToNumber_of_key db hwf ((sortedHeaderKeys_perm db).mem_iff.1 hk))]
  apply List.map_congr_left
  intro k hk
  have hk' : k ∈ db.headerStore.map Prod.fst := (sortedHeaderKeys_perm db).mem_iff.1 hk
  have hl := (lookup_headerStore_of_key db hwf hk').1
  simp only [rawdb.ReadHeader]
  exact hl

theorem readAllHeaders_perm (db : MemDB) (subs : List (List Header)) (hwf : storeWF db) :
    (core.readAllHeaders { headerContainer := db, pndHeaderFeed := subs }).Perm
      (db.headerStore.map (fun e => some e.2)) := by
  rw [readAllHeaders_eq db subs hwf]
  have h1 := (sortedHeaderKeys_perm db).map (fun k => some (headerAtKey db k))
  rw [List.map_map] at h1
  have h2 : db.headerStore.map ((fun k => some (headerAtKey db k)) ∘ Prod.fst) =
      db.headerStore.map (fun e => some e.2) :=
    List.map_congr_left (fun e he => by
      have hl := lookupAssoc_eq_some_of_mem hwf.2.2 he
      simp [Function.comp, headerAtKey, hl])
  exact h1.trans (h2 ▸ List.Perm.refl _)

theorem readAllHeaders_numbers_sorted (db : MemDB) (subs : List (List Header))
    (hwf : storeWF db) :
    List.Pairwise (fun a b => a ≤ b)
      (((core.readAllHeaders { headerContainer := db, pndHeaderFeed := subs }).filterMap
          id).map Header.number) := by
  rw [readAllHeaders_eq db subs hwf]
  rw [List.filterMap_map, Function.id_comp]
  rw [filterMap_of_mem_some (f := headerAtKey db) (fun k _ => rfl)]
  rw [List.map_map]
  have hmaps : (rawdb.sortedHeaderKeys db).map (Header.number ∘ headerAtKey db) =
      (rawdb.sortedHeaderKeys db).map Prod.fst :=
    List.map_congr_left (fun k hk =>
      (lookup_headerStore_of_key db hwf ((sortedHeaderKeys_perm db).mem_iff.1 hk)).2.1)
  rw [hmaps]
  exact (sortedHeaderKeys_sorted db).map Prod.fst
    (fun a b hab => by unfold rawdb.keyLe at hab; omega)

/-! ### Branch lemmas for `ReadHeaderSince` -/

/-- Spec-side reachability at the container level: a fresh container, the
given current subscribers, and the writes applied in order. -/
def containerOf (hs : List Header) (subs : List (List Header)) : PandoraPendingHeaderContainer :=
  { headerContainer := dbOf hs, pndHeaderFeed := subs }

theorem containerOf_headerContainer (hs : List Header) (subs : List (List Header)) :
    (containerOf hs subs).headerContainer = dbOf hs :=
  rfl

theorem ReadHeaderSince_of_none (c : PandoraPendingHeaderContainer) (fromHash : Nat)
    (hfrom : rawdb.ReadHeaderNumber c.headerContainer fromHash = none) :
    core.ReadHeaderSince c fromHash = core.readAllHeaders c := by
  simp [core.ReadHeaderSince, hfrom]

theorem ReadHeaderSince_of_some (c : PandoraPendingHeaderContainer) (fromHash k n : Nat)
    (hfrom : rawdb.ReadHeaderNumber c.headerContainer fromHash = some k)
    (hlast : rawdb.ReadHeaderNumber c.headerContainer
      (rawdb.ReadHeadHeaderHash c.headerContainer) = some n) :
    core.ReadHeaderSince c fromHash =
      (resolvableNumbers c k n).map (fun i => core.readHeader c i) := by
  simp only [core.ReadHeaderSince, hfrom, hlast, resolvableNumbers]
  exact filterMap_map_some_eq _ _

theorem readHeader_number (db : MemDB) (subs : List (List Header)) (hwf : storeWF db)
    (i : Nat) (h : Header)
    (hh : core.readHeader { headerContainer := db, pndHeaderFeed := subs } i = some h) :
    h.number = i := by
  rcases hah : rawdb.ReadAllHashes db i with _ | ⟨x, xs⟩
  · simp [core.readHeader, hah] at hh
  · simp only [core.readHeader, hah, rawdb.ReadHeader] at hh
    exact (hwf.1 _ (mem_of_lookupAssoc_eq_some hh)).1

/-- On the range branch of a well-formed store, the numbers of the
returned headers are exactly the resolvable numbers of the range. -/
theorem range_numbers_eq (hs : List Header) (subs : List (List Header)) (fromHash k n : Nat)
    (hc : hashConsistent hs)
    (hfrom : rawdb.ReadHeaderNumber (dbOf hs) fromHash = some k)
    (hlast : rawdb.ReadHeaderNumber (dbOf hs)
      (rawdb.ReadHeadHeaderHash (dbOf hs)) = some n) :
    ((core.ReadHeaderSince (containerOf hs subs) fromHash).filterMap id).map Header.number =
      resolvableNumbers (containerOf hs subs) k n := by
  have hwf := (dbOf_wf hs hc).1
  rw [ReadHeaderSince_of_some (containerOf hs subs) fromHash k n hfrom hlast]
  rw [List.filterMap_map, Function.id_comp]
  have hres : ∀ i ∈ resolvableNumbers (containerOf hs subs) k n,
      core.readHeader (containerOf hs subs) i =
        some ((core.readHeader (containerOf hs subs) i).getD ⟨0, 0, 0⟩) := by
    intro i hi
    have hsome : (core.readHeader (containerOf hs subs) i).isSome := by
      have := List.of_mem_filter hi
      simpa using this
    rcases Option.isSome_iff_exists.1 hsome with ⟨v, hv⟩
    simp [hv]
  rw [filterMap_of_mem_some hres]
  rw [List.map_map]
  have hnum : ∀ i ∈ resolvableNumbers (containerOf hs subs) k n,
      (Header.number ∘ fun i => (core.readHeader (containerOf hs subs) i).getD ⟨0, 0, 0⟩) i
        = id i := by
    intro i hi
    have hv := hres i hi
    have := readHeader_number (dbOf hs) subs hwf i _ hv
    simpa using this
  rw [List.map_congr_left hnum, List.map_id]

/-! ### Claim C1 (corrected) -/

/-- C1 counterexample: on a container holding one current subscriber with
an empty inbox, `WriteHeader` delivers no event at all — after the write
the subscriber's inbox is still empty, not the one-event inbox the claim
requires, because the function body never touches the feed. -/
theorem C1_counterexample :
    (core.WriteHeader
        { headerContainer := rawdb.NewMemoryDatabase, pndHeaderFeed := [[]] }
        { number := 1, hash := 10, extra := 0 }).pndHeaderFeed = [[]] ∧
      ([[]] : List (List Header)) ≠ [[{ number := 1, hash := 10, extra := 0 }]] := by
  exact ⟨rfl, by decide⟩

/-- C1 amended: `WriteHeader(header)` persists the header in the store
under its number-and-hash key and makes its hash the container head, but
fires no notification event: the subscriber inboxes are left exactly as
they were (so, trivially, the write neither blocks on nor fails because
of subscribers). -/
theorem C1_amended_WriteHeader_persists_without_event
    (c : PandoraPendingHeaderContainer) (header : Header) :
    lookupAssoc (core.WriteHeader c header).headerContainer.headerStore
        (header.number, header.hash) = some header ∧
      (core.WriteHeader c header).headerContainer.headHash = some header.hash ∧
      (core.WriteHeader c header).pndHeaderFeed = c.pndHeaderFeed := by
  refine ⟨?_, rfl, rfl⟩
  simp [core.WriteHeader, rawdb.WriteHeadHeaderHash, rawdb.WriteHeader, lookupAssoc_putAssoc]

/-! ### Claim C4 -/

/-- C4: on the empty container — no header ever written, head absent —
`ReadHeaderSince` returns the empty sequence for every `from` hash; every
such query takes the unresolvable-`from` path, and the attempted full
snapshot over the empty store yields nothing. -/
theorem C4_empty_container_reads_empty (subs : List (List Header)) (fromHash : Nat) :
    core.ReadHeaderSince (containerOf [] subs) fromHash = [] :=
  rfl

/-! ### Claim C7 -/

/-- C7: `ConfirmPanBlockHashes` on the empty request fails with the input
error before any response is built — no per-item status is produced and
nothing is handed to the transport. -/
theorem C7_empty_request_rejected :
    pandora_orcclient.ConfirmPanBlockHashes [] =
      Except.error "request has empty slice" :=
  rfl

/-! ### Claim C10 -/

/-- C10: `WriteHeader` is idempotent — a second write of the same header
leaves the container state exactly as after the first, so every later
`ReadHeaderSince`, head lookup and number lookup coincides and the header
is staged only once. -/
theorem C10_WriteHeader_idempotent (c : PandoraPendingHeaderContainer) (header : Header) :
    core.WriteHeader (core.WriteHeader c header) header = core.WriteHeader c header ∧
      (∀ fromHash,
        core.ReadHeaderSince (core.WriteHeader (core.WriteHeader c header) header) fromHash =
          core.ReadHeaderSince (core.WriteHeader c header) fromHash) ∧
      (∀ x,
        rawdb.ReadHeaderNumber
            (core.WriteHeader (core.WriteHeader c header) header).headerContainer x =
          rawdb.ReadHeaderNumber (core.WriteHeader c header).headerContainer x) ∧
      rawdb.ReadHeadHeaderHash
          (core.WriteHeader (core.WriteHeader c header) header).headerContainer =
        rawdb.ReadHeadHeaderHash (core.WriteHeader c header).headerContainer := by
  have hstate :
      core.WriteHeader (core.WriteHeader c header) header = core.WriteHeader c header := by
    simp [core.WriteHeader, rawdb.WriteHeadHeaderHash, rawdb.WriteHeader, putAssoc_putAssoc]
  exact ⟨hstate, fun fromHash => by rw [hstate], fun x => by rw [hstate], by rw [hstate]⟩

/-! ### Claim C6 -/

/-- C6: on every non-empty request, `ConfirmPanBlockHashes` succeeds with
a response of the same length whose item at each position carries exactly
that position's request hash and slot, and a status that is one of
`Pending`, `Verified`, `Invalid`. -/
theorem C6_positional_response (request : List pandora_orcclient.BlockHash)
    (hne : request ≠ []) :
    ∃ response : List pandora_orcclient.BlockStatus,
      pandora_orcclient.ConfirmPanBlockHashes request = Except.ok response ∧
      response.length = request.length ∧
      ∀ i : Fin request.length, ∀ j : Fin response.length, (i : Nat) = (j : Nat) →
        (response.get j).blockHash.hash = (request.get i).hash ∧
        (response.get j).blockHash.slot = (request.get i).slot ∧
        ((response.get j).status = pandora_orcclient.Status.Pending ∨
          (response.get j).status = pandora_orcclient.Status.Verified ∨
          (response.get j).status = pandora_orcclient.Status.Invalid) := by
  have hlen : ¬request.length < 1 := by
    cases request with
    | nil => exact absurd rfl hne
    | cons a t => simp
  refine ⟨request.map (fun blockRequest =>
      { blockHash := { hash := blockRequest.hash, slot := blockRequest.slot }
        status := pandora_orcclient.confirmStatus blockRequest.hash }), ?_, by simp, ?_⟩
  · simp [pandora_orcclient.ConfirmPanBlockHashes, hlen]
  · intro i j hij
    rcases i with ⟨iv, hi⟩
    rcases j with ⟨jv, hj⟩
    simp only at hij
    subst hij
    simp only [List.get_eq_getElem, List.getElem_map]
    refine ⟨trivial, trivial, ?_⟩
    simp only [pandora_orcclient.confirmStatus]
    split_ifs <;> simp

/-- C6 witness: the theorem instantiated at a concrete one-item request. -/
theorem C6_positional_response_witness :
    ∃ response : List pandora_orcclient.BlockStatus,
      pandora_orcclient.ConfirmPanBlockHashes [{ hash := 5, slot := 1 }] =
        Except.ok response ∧
      response.length = ([{ hash := 5, slot := 1 }] : List pandora_orcclient.BlockHash).length ∧
      ∀ i : Fin ([{ hash := 5, slot := 1 }] : List pandora_orcclient.BlockHash).length,
        ∀ j : Fin response.length, (i : Nat) = (j : Nat) →
        (response.get j).blockHash.hash =
          (([{ hash := 5, slot := 1 }] : List pandora_orcclient.BlockHash).get i).hash ∧
        (response.get j).blockHash.slot =
          (([{ hash := 5, slot := 1 }] : List pandora_orcclient.BlockHash).get i).slot ∧
        ((response.get j).status = pandora_orcclient.Status.Pending ∨
          (response.get j).status = pandora_orcclient.Status.Verified ∨
          (response.get j).status = pandora_orcclient.Status.Invalid) :=
  C6_positional_response [{ hash := 5, slot := 1 }] (by decide)

/-! ### Claim C8 -/

/-- C8: the reference authority policy of the mock orchestrator — a hash
in the known-invalid set is answered `Invalid`, one in the known-pending
set `Pending`, any other hash `Verified` — together with the round trip
of the claim: the request `[(invalid, slot 1), (pending, slot 2)]` yields
`[(invalid, 1, Invalid), (pending, 2, Pending)]`, positionally matched. -/
theorem C8_reference_policy :
    pandora_orcclient.ConfirmPanBlockHashes
        [{ hash := pandora_orcclient.MockedHashInvalid, slot := 1 },
          { hash := pandora_orcclient.MockedHashPending, slot := 2 }] =
      Except.ok
        [{ blockHash := { hash := pandora_orcclient.MockedHashInvalid, slot := 1 }
           status := pandora_orcclient.Status.Invalid },
          { blockHash := { hash := pandora_orcclient.MockedHashPending, slot := 2 }
            status := pandora_orcclient.Status.Pending }] ∧
      ∀ request : List pandora_orcclient.BlockHash, request ≠ [] →
        ∀ response : List pandora_orcclient.BlockStatus,
          pandora_orcclient.ConfirmPanBlockHashes request = Except.ok response →
          ∀ j : Fin response.length,
            ((response.get j).blockHash.hash = pandora_orcclient.MockedHashInvalid →
              (response.get j).status = pandora_orcclient.Status.Invalid) ∧
            ((response.get j).blockHash.hash = pandora_orcclient.MockedHashPending →
              (response.get j).status = pandora_orcclient.Status.Pending) ∧
            ((response.get j).blockHash.hash ≠ pandora_orcclient.MockedHashInvalid →
              (response.get j).blockHash.hash ≠ pandora_orcclient.MockedHashPending →
              (response.get j).status = pandora_orcclient.Status.Verified) := by
  constructor
  · rfl
  · intro request hne response hresp j
    have hlen : ¬request.length < 1 := by
      cases request with
      | nil => exact absurd rfl hne
      | cons a t => simp
    simp only [pandora_orcclient.ConfirmPanBlockHashes, if_neg hlen, Except.ok.injEq] at hresp
    subst hresp
    rcases j with ⟨jv, hj⟩
    simp only [List.get_eq_getElem, List.getElem_map]
    have hdiff : pandora_orcclient.MockedHashInvalid ≠ pandora_orcclient.MockedHashPending := by
      decide
    have hdiff' : pandora_orcclient.MockedHashPending ≠ pandora_orcclient.MockedHashInvalid :=
      Ne.symm hdiff
    simp only [pandora_orcclient.confirmStatus]
    split_ifs with h1 h2 <;> simp_all

/-- C8 witness: the round trip of the claim, plus the default-`Verified`
policy instantiated at a concrete unrecognized one-item request. -/
theorem C8_reference_policy_witness :
    pandora_orcclient.ConfirmPanBlockHashes
        [{ hash := pandora_orcclient.MockedHashInvalid, slot := 1 },
          { hash := pandora_orcclient.MockedHashPending, slot := 2 }] =
      Except.ok
        [{ blockHash := { hash := pandora_orcclient.MockedHashInvalid, slot := 1 }
           status := pandora_orcclient.Status.Invalid },
          { blockHash := { hash := pandora_orcclient.MockedHashPending, slot := 2 }
            status := pandora_orcclient.Status.Pending }] ∧
      (([{ blockHash := { hash := 7, slot := 3 }
           status := pandora_orcclient.Status.Verified }] :
          List pandora_orcclient.BlockStatus).get ⟨0, by decide⟩).status =
        pandora_orcclient.Status.Verified :=
  ⟨C8_reference_policy.1,
    (C8_reference_policy.2 [{ hash := 7, slot := 3 }] (by decide)
        [{ blockHash := { hash := 7, slot := 3 }
           status := pandora_orcclient.Status.Verified }] rfl ⟨0, by decide⟩).2.2
      (by decide) (by decide)⟩

/-! ### Claim C2 -/

/-- C2: on every write-reachable, collision-free container state, a `from`
hash with no number binding — the zero/empty hash at orchestrator bootup,
or a hash already confirmed and pruned — does not fail the call:
`ReadHeaderSince` degrades to the full snapshot and returns all currently
staged headers. -/
theorem C2_full_snapshot_on_unresolvable (hs : List Header) (subs : List (List Header))
    (fromHash : Nat) (hc : hashConsistent hs)
    (hfrom : rawdb.ReadHeaderNumber (dbOf hs) fromHash = none) :
    (core.ReadHeaderSince (containerOf hs subs) fromHash).Perm
      ((dbOf hs).headerStore.map (fun e => some e.2)) := by
  rw [ReadHeaderSince_of_none (containerOf hs subs) fromHash hfrom]
  exact readAllHeaders_perm (dbOf hs) subs (dbOf_wf hs hc).1

/-- C2 witness: the theorem at a two-header container queried with the
zero hash. -/
theorem C2_full_snapshot_on_unresolvable_witness :
    (core.ReadHeaderSince (containerOf [⟨1, 10, 0⟩, ⟨2, 20, 0⟩] []) 0).Perm
      ((dbOf [⟨1, 10, 0⟩, ⟨2, 20, 0⟩]).headerStore.map (fun e => some e.2)) :=
  C2_full_snapshot_on_unresolvable [⟨1, 10, 0⟩, ⟨2, 20, 0⟩] [] 0 (by decide) (by decide)

/-! ### Claim C3 -/

/-- C3: when `from` is staged at number k and the head resolves to number
n, `ReadHeaderSince` returns exactly one header for every number of the
inclusive range [k, n] that resolves to a stored header — each returned
header carrying its own number — in strictly ascending number order,
skipping (rather than failing on) the numbers of the range with no stored
header. -/
theorem C3_range_read (hs : List Header) (subs : List (List Header)) (fromHash k n : Nat)
    (hc : hashConsistent hs)
    (hfrom : rawdb.ReadHeaderNumber (dbOf hs) fromHash = some k)
    (hlast : rawdb.ReadHeaderNumber (dbOf hs)
      (rawdb.ReadHeadHeaderHash (dbOf hs)) = some n) :
    core.ReadHeaderSince (containerOf hs subs) fromHash =
      (resolvableNumbers (containerOf hs subs) k n).map
        (fun i => core.readHeader (containerOf hs subs) i) ∧
      (∀ i ∈ resolvableNumbers (containerOf hs subs) k n,
        ∃ h : Header, core.readHeader (containerOf hs subs) i = some h ∧ h.number = i) ∧
      List.Pairwise (fun a b => a < b) (resolvableNumbers (containerOf hs subs) k n) := by
  have hwf := (dbOf_wf hs hc).1
  refine ⟨ReadHeaderSince_of_some (containerOf hs subs) fromHash k n hfrom hlast, ?_, ?_⟩
  · intro i hi
    have hsome : (core.readHeader (containerOf hs subs) i).isSome := by
      have := List.of_mem_filter hi
      simpa using this
    rcases Option.isSome_iff_exists.1 hsome with ⟨v, hv⟩
    exact ⟨v, hv, readHeader_number (dbOf hs) subs hwf i v hv⟩
  · simp only [resolvableNumbers]
    exact (List.pairwise_lt_range' k (n + 1 - k)).filter _

/-- C3 witness: three headers at numbers 1, 2, 4; `from` is the header at
number 1, the head is at number 4, and number 3 is skipped. -/
theorem C3_range_read_witness :
    core.ReadHeaderSince (containerOf [⟨1, 10, 0⟩, ⟨2, 20, 0⟩, ⟨4, 40, 0⟩] []) 10 =
      (resolvableNumbers (containerOf [⟨1, 10, 0⟩, ⟨2, 20, 0⟩, ⟨4, 40, 0⟩] []) 1 4).map
        (fun i => core.readHeader (containerOf [⟨1, 10, 0⟩, ⟨2, 20, 0⟩, ⟨4, 40, 0⟩] []) i) ∧
      (∀ i ∈ resolvableNumbers (containerOf [⟨1, 10, 0⟩, ⟨2, 20, 0⟩, ⟨4, 40, 0⟩] []) 1 4,
        ∃ h : Header,
          core.readHeader (containerOf [⟨1, 10, 0⟩, ⟨2, 20, 0⟩, ⟨4, 40, 0⟩] []) i = some h ∧
            h.number = i) ∧
      List.Pairwise (fun a b => a < b)
        (resolvableNumbers (containerOf [⟨1, 10, 0⟩, ⟨2, 20, 0⟩, ⟨4, 40, 0⟩] []) 1 4) :=
  C3_range_read [⟨1, 10, 0⟩, ⟨2, 20, 0⟩, ⟨4, 40, 0⟩] [] 10 1 4 (by decide) (by decide)
    (by decide)

/-! ### Claim C5 (corrected) -/

/-- C5 counterexample: two staged headers share number 5 under distinct
hashes; the unresolvable `from` takes the full-snapshot branch, which
returns both, so the returned sequence carries number 5 twice — the
claimed at-most-one-header-per-number bound fails on that branch. -/
theorem C5_counterexample :
    ((core.ReadHeaderSince (containerOf [⟨5, 100, 0⟩, ⟨5, 200, 0⟩] []) 0).filterMap
        id).map Header.number = [5, 5] := by
  rfl

/-- C5 amended: on every write-reachable, collision-free container state
the numbers of the returned headers are non-decreasing on both branches;
on the resolvable-`from` range branch they are strictly increasing, hence
at most one header per number there.  The full-snapshot branch returns
every staged header and may therefore repeat a number. -/
theorem C5_amended_ordering (hs : List Header) (subs : List (List Header)) (fromHash : Nat)
    (hc : hashConsistent hs) :
    List.Pairwise (fun a b => a ≤ b)
      (((core.ReadHeaderSince (containerOf hs subs) fromHash).filterMap id).map
        Header.number) ∧
      (rawdb.ReadHeaderNumber (dbOf hs) fromHash ≠ none →
        List.Pairwise (fun a b => a < b)
          (((core.ReadHeaderSince (containerOf hs subs) fromHash).filterMap id).map
            Header.number)) := by
  have hwf := (dbOf_wf hs hc).1
  rcases hfrom : rawdb.ReadHeaderNumber (dbOf hs) fromHash with _ | k
  · constructor
    · rw [ReadHeaderSince_of_none (containerOf hs subs) fromHash hfrom]
      exact readAllHeaders_numbers_sorted (dbOf hs) subs hwf
    · intro hne
      exact absurd rfl hne
  · rcases hlast : rawdb.ReadHeaderNumber (dbOf hs) (rawdb.ReadHeadHeaderHash (dbOf hs))
      with _ | n
    · have hfrom2 : rawdb.ReadHeaderNumber (containerOf hs subs).headerContainer fromHash =
          some k := hfrom
      have hlast2 : rawdb.ReadHeaderNumber (containerOf hs subs).headerContainer
          (rawdb.ReadHeadHeaderHash (containerOf hs subs).headerContainer) = none := hlast
      have hempty : core.ReadHeaderSince (containerOf hs subs) fromHash = [] := by
        simp [core.ReadHeaderSince, hfrom2, hlast2]
      rw [hempty]
      exact ⟨by simp, fun _ => by simp⟩
    · have hnums := range_numbers_eq hs subs fromHash k n hc hfrom hlast
      have hstrict : List.Pairwise (fun a b => a < b)
          (((core.ReadHeaderSince (containerOf hs subs) fromHash).filterMap id).map
            Header.number) := by
        rw [hnums]
        simp only [resolvableNumbers]
        exact (List.pairwise_lt_range' k (n + 1 - k)).filter _
      exact ⟨hstrict.imp (fun hab => Nat.le_of_lt hab), fun _ => hstrict⟩

/-- C5 amended witness: the theorem at a two-header container queried from
the first header's hash. -/
theorem C5_amended_ordering_witness :
    List.Pairwise (fun a b => a ≤ b)
      (((core.ReadHeaderSince (containerOf [⟨1, 10, 0⟩, ⟨2, 20, 0⟩] []) 10).filterMap
          id).map Header.number) ∧
      (rawdb.ReadHeaderNumber (dbOf [⟨1, 10, 0⟩, ⟨2, 20, 0⟩]) 10 ≠ none →
        List.Pairwise (fun a b => a < b)
          (((core.ReadHeaderSince (containerOf [⟨1, 10, 0⟩, ⟨2, 20, 0⟩] []) 10).filterMap
              id).map Header.number)) :=
  C5_amended_ordering [⟨1, 10, 0⟩, ⟨2, 20, 0⟩] [] 10 (by decide)

/-! ### Claim C9 -/

theorem foldl_preserves_isSome (hs : List Header) (db : MemDB) (x : Nat)
    (h : (lookupAssoc db.hashToNumber x).isSome) :
    (lookupAssoc (hs.foldl dbStep db).hashToNumber x).isSome := by
  induction hs generalizing db with
  | nil => exact h
  | cons a t ih =>
    rw [List.foldl_cons]
    exact ih (dbStep db a) (by
      simpa [dbStep, rawdb.WriteHeadHeaderHash, rawdb.WriteHeader] using
        lookupAssoc_putAssoc_isSome h a.hash a.number)

theorem foldl_resolves (hs : List Header) (db : MemDB) :
    ∀ h ∈ hs, (lookupAssoc (hs.foldl dbStep db).hashToNumber h.hash).isSome := by
  induction hs generalizing db with
  | nil => intro h hh; simp at hh
  | cons a t ih =>
    intro h hh
    rw [List.foldl_cons]
    rcases List.mem_cons.1 hh with rfl | hh'
    · exact foldl_preserves_isSome t (dbStep db h) h.hash (by
        simp [dbStep, rawdb.WriteHeadHeaderHash, rawdb.WriteHeader, lookupAssoc_putAssoc])
    · exact ih (dbStep db a) h hh'

theorem foldl_store_resolves (hs : List Header) (db : MemDB)
    (hdb : ∀ e ∈ db.headerStore, (lookupAssoc db.hashToNumber e.1.2).isSome) :
    ∀ e ∈ (hs.foldl dbStep db).headerStore,
      (lookupAssoc (hs.foldl dbStep db).hashToNumber e.1.2).isSome := by
  induction hs generalizing db with
  | nil => exact hdb
  | cons a t ih =>
    rw [List.foldl_cons]
    refine ih (dbStep db a) ?_
    intro e he
    simp only [dbStep, rawdb.WriteHeadHeaderHash, rawdb.WriteHeader] at he ⊢
    rcases mem_putAssoc he with rfl | he'
    · simp [lookupAssoc_putAssoc]
    · exact lookupAssoc_putAssoc_isSome (hdb e he') _ _

theorem foldl_head_last (hs : List Header) (db : MemDB) (last : Header)
    (hlast : hs.getLast? = some last) :
    (hs.foldl dbStep db).headHash = some last.hash ∧
      lookupAssoc (hs.foldl dbStep db).headerStore (last.number, last.hash) = some last := by
  induction hs using List.reverseRecOn with
  | nil => simp at hlast
  | append_singleton t h _ =>
    have hl : h = last := by simpa using hlast
    subst hl
    rw [List.foldl_append]
    exact ⟨rfl, by
      simp [dbStep, rawdb.WriteHeadHeaderHash, rawdb.WriteHeader, lookupAssoc_putAssoc]⟩

/-- C9: after `WriteHeaderBatch([h1, ..., hn])` with n ≥ 1 applied in
order to any container, the head equals hn's hash, every written header's
hash resolves to a number, hn itself is read back under the head hash —
the head refers to a header present in the store — and resolvability of
every already-stored header's hash is preserved, so on containers built
by writes every stored header's hash has a known number. -/
theorem C9_append_monotonicity (c : PandoraPendingHeaderContainer) (hs : List Header)
    (last : Header) (hlast : hs.getLast? = some last) :
    (core.WriteHeaderBatch c hs).headerContainer.headHash = some last.hash ∧
      (∀ h ∈ hs,
        (rawdb.ReadHeaderNumber (core.WriteHeaderBatch c hs).headerContainer
          h.hash).isSome) ∧
      rawdb.ReadHeader (core.WriteHeaderBatch c hs).headerContainer last.hash last.number =
        some last ∧
      ((∀ e ∈ c.headerContainer.headerStore,
          (rawdb.ReadHeaderNumber c.headerContainer e.1.2).isSome) →
        ∀ e ∈ (core.WriteHeaderBatch c hs).headerContainer.headerStore,
          (rawdb.ReadHeaderNumber (core.WriteHeaderBatch c hs).headerContainer
            e.1.2).isSome) := by
  rw [WriteHeaderBatch_components]
  have hhl := foldl_head_last hs c.headerContainer last hlast
  exact ⟨hhl.1, fun h hh => foldl_resolves hs c.headerContainer h hh, hhl.2,
    fun hdb e he => foldl_store_resolves hs c.headerContainer hdb e he⟩

/-- C9 witness: a fresh container given a two-header batch. -/
theorem C9_append_monotonicity_witness :
    (core.WriteHeaderBatch core.NewPandoraPendingHeaderContainer
        [⟨1, 10, 0⟩, ⟨2, 20, 0⟩]).headerContainer.headHash =
        some (Header.mk 2 20 0).hash ∧
      (∀ h ∈ ([⟨1, 10, 0⟩, ⟨2, 20, 0⟩] : List Header),
        (rawdb.ReadHeaderNumber
          (core.WriteHeaderBatch core.NewPandoraPendingHeaderContainer
            [⟨1, 10, 0⟩, ⟨2, 20, 0⟩]).headerContainer h.hash).isSome) ∧
      rawdb.ReadHeader
          (core.WriteHeaderBatch core.NewPandoraPendingHeaderContainer
            [⟨1, 10, 0⟩, ⟨2, 20, 0⟩]).headerContainer (Header.mk 2 20 0).hash
          (Header.mk 2 20 0).number =
        some (Header.mk 2 20 0) ∧
      ((∀ e ∈ core.NewPandoraPendingHeaderContainer.headerContainer.headerStore,
          (rawdb.ReadHeaderNumber core.NewPandoraPendingHeaderContainer.headerContainer
            e.1.2).isSome) →
        ∀ e ∈ (core.WriteHeaderBatch core.NewPandoraPendingHeaderContainer
            [⟨1, 10, 0⟩, ⟨2, 20, 0⟩]).headerContainer.headerStore,
          (rawdb.ReadHeaderNumber
            (core.WriteHeaderBatch core.NewPandoraPendingHeaderContainer
              [⟨1, 10, 0⟩, ⟨2, 20, 0⟩]).headerContainer e.1.2).isSome) :=
  C9_append_monotonicity core.NewPandoraPendingHeaderContainer [⟨1, 10, 0⟩, ⟨2, 20, 0⟩]
    (Header.mk 2 20 0) (by decide)
